import Mathlib

/-!
Verification development for the `file-duplicates` / `duped` repository.

The Rust sources are shallowly embedded: pure functions become Lean
functions, stateful loops become explicit state passing, machine integers
become `Nat`/`Int` (the code never relies on wrap-around in the parts
modelled here), and fallible operations return `Option`/`Except`.
File contents are byte lists; the BLAKE3 hash is an abstract parameter
`H : List Byte → HashV` since its internals are an external library.
-/

namespace FileDup

abbrev Byte := Nat
abbrev FPath := Nat
abbrev HashV := Nat

/-! ## `hash_file` (src/duped/src/lib.rs 234-250)

The `BufReader` loop is modelled over an arbitrary chunk decomposition of
the file: `fill_buf` yields successive chunks, the hasher state absorbs
each chunk, `size` accumulates the byte count, and on EOF the pair
`(size, finalize)` is returned. -/

def hashFileLoop (H : List Byte → HashV) :
    List Byte → Nat → List (List Byte) → Nat × HashV
  | absorbed, size, [] => (size, H absorbed)
  | absorbed, size, c :: cs => hashFileLoop H (absorbed ++ c) (size + c.length) cs

def hash_file (H : List Byte → HashV) (chunks : List (List Byte)) : Nat × HashV :=
  hashFileLoop H [] 0 chunks

/-! ## Result model (src/duped/src/duplicates.rs) -/

structure FileEntry where
  path : FPath
  size : Nat
deriving DecidableEq, Repr

structure FileEntries where
  files : List FileEntry
  file_size : Nat
deriving DecidableEq, Repr

/-- `FileEntries::push`: on an empty group the size is adopted from the
entry; otherwise `assert_eq!(self.file_size, entry.size())` — an assertion
failure (a panic) is modelled as `none`. -/
def FileEntries.push (es : FileEntries) (e : FileEntry) : Option FileEntries :=
  if es.files = [] then some ⟨[e], e.size⟩
  else if es.file_size = e.size then some ⟨es.files ++ [e], es.file_size⟩
  else none

/-- `DeduperResult`: the `HashMap<Hash, FileEntries>` is modelled as an
association list with unique keys. -/
structure DeduperResult where
  hashes : List (HashV × FileEntries)
  isPartial : Bool
deriving DecidableEq, Repr

def lookupH : List (HashV × FileEntries) → HashV → Option FileEntries
  | [], _ => none
  | (k, v) :: rest, h => if k = h then some v else lookupH rest h

def updateH : List (HashV × FileEntries) → HashV → FileEntries → List (HashV × FileEntries)
  | [], h, v => [(h, v)]
  | (k, w) :: rest, h, v =>
    if k = h then (h, v) :: rest else (k, w) :: updateH rest h v

/-- `DeduperResult::add_entry`: `entry(hash).or_insert_with(new(vec![])).push(file)`. -/
def DeduperResult.add_entry (r : DeduperResult) (h : HashV) (e : FileEntry) :
    Option DeduperResult :=
  match ((lookupH r.hashes h).getD ⟨[], 0⟩).push e with
  | some g => some ⟨updateH r.hashes h g, r.isPartial⟩
  | none => none

/-- `DeduperResult::duplicates`: groups with `files.len() > 1`. -/
def DeduperResult.duplicates (r : DeduperResult) : List (HashV × FileEntries) :=
  r.hashes.filter (fun x => decide (1 < x.2.files.length))

/-- `DeduperResult::set_partial`. -/
def DeduperResult.setPartial (r : DeduperResult) : DeduperResult :=
  { r with isPartial := true }

/-! ## `collect` (src/duped/src/lib.rs 314-333)

The collector drains the result channel; `Err` results are logged and
skipped, `Ok` results are inserted keyed by their hash.  A message is a
path together with the `io::Result<(u64, Hash)>` the worker produced. -/

abbrev Msg := FPath × Except Nat (Nat × HashV)

def collectAux : DeduperResult → List Msg → Option DeduperResult
  | r, [] => some r
  | r, (_, Except.error _) :: rest => collectAux r rest
  | r, (p, Except.ok (sz, h)) :: rest =>
    match r.add_entry h ⟨p, sz⟩ with
    | some r' => collectAux r' rest
    | none => none

def collect (msgs : List Msg) : Option DeduperResult :=
  collectAux ⟨[], false⟩ msgs

/-- The successfully hashed messages, in order. -/
structure OkMsg where
  path : FPath
  size : Nat
  hash : HashV
deriving DecidableEq, Repr

def oks : List Msg → List OkMsg
  | [] => []
  | (_, Except.error _) :: rest => oks rest
  | (p, Except.ok (sz, h)) :: rest => ⟨p, sz, h⟩ :: oks rest

/-- The walker hands each accepted file to a worker, the worker runs
`hash_file`, and the collector receives the results: composition of the
per-file pipeline for an error-free run.  Each file is a path together
with the chunk decomposition its reader produces. -/
def msgsOf (H : List Byte → HashV) (files : List (FPath × List (List Byte))) : List Msg :=
  files.map (fun f => (f.1, Except.ok (hash_file H f.2)))

def runCollect (H : List Byte → HashV) (files : List (FPath × List (List Byte))) :
    Option DeduperResult :=
  collect (msgsOf H files)

def contentOf (f : FPath × List (List Byte)) : List Byte := f.2.flatten

/-- Two paths land in the same hash group of the result. -/
def sameGroup (r : DeduperResult) (p q : FPath) : Prop :=
  ∃ h g, lookupH r.hashes h = some g ∧
    p ∈ g.files.map FileEntry.path ∧ q ∈ g.files.map FileEntry.path

/-! ## The walker main loop with a stopper (src/duped/src/lib.rs 94-168)

`stopper.should_stop()` is consulted once per walked entry; on `true` the
loop breaks out of all roots and the final result is marked partial.  The
stopper is modelled as the sequence of verdicts of its successive calls. -/

def walkLoop (stop : Nat → Bool) :
    List (FPath × List (List Byte)) → Nat → List (FPath × List (List Byte)) × Bool
  | [], _ => ([], false)
  | e :: rest, k =>
    if stop k then ([], true)
    else
      let r := walkLoop stop rest (k + 1)
      (e :: r.1, r.2)

/-- `Deduper::find` for an error-free run: walk (with the stopper),
dispatch, hash, collect, then `set_partial` when the walk was stopped. -/
def findRun (stop : Nat → Bool) (H : List Byte → HashV)
    (files : List (FPath × List (List Byte))) : Option DeduperResult :=
  let w := walkLoop stop files 0
  (runCollect H w.1).map (fun r => if w.2 then r.setPartial else r)

/-! ## Progressive hasher (src/duped/src/hasher.rs)

`FilePath` (src/duped/src/file.rs) is a path with a metadata snapshot;
its `metadata().len()` is the length of the byte content held here. -/

structure FilePathM where
  path : FPath
  content : List Byte
deriving DecidableEq, Repr

structure ProgressiveHasher where
  file_path : FilePathM
  /-- The bytes absorbed so far by the inner `blake3::Hasher`. -/
  absorbed : List Byte
  len_hashed : Nat
deriving DecidableEq, Repr

/-- `const MIN_TO_READ: u64 = 16 * 1024 * 1024;` -/
def MIN_TO_READ : Nat := 16 * 1024 * 1024

def ProgressiveHasher.new (fp : FilePathM) : ProgressiveHasher :=
  ⟨fp, [], 0⟩

/-- `ProgressiveHasher::update`: seek to `len_hashed`, read
`min(leftover, MIN_TO_READ)` bytes into the hasher, advance `len_hashed`. -/
def ProgressiveHasher.update (ph : ProgressiveHasher) : ProgressiveHasher :=
  let leftover := ph.file_path.content.length - ph.len_hashed
  let bytesToTake := min leftover MIN_TO_READ
  { ph with
    absorbed := ph.absorbed ++ (ph.file_path.content.drop ph.len_hashed).take bytesToTake,
    len_hashed := ph.len_hashed + bytesToTake }

/-- `ProgressiveHasher::current_hash`: finalize a clone of the state and
report `done := len_hashed == metadata().len()`. -/
def ProgressiveHasher.current_hash (H : List Byte → HashV) (ph : ProgressiveHasher) :
    HashV × Bool :=
  (H ph.absorbed, ph.len_hashed == ph.file_path.content.length)

def ProgressiveHasher.updateN (ph : ProgressiveHasher) : Nat → ProgressiveHasher
  | 0 => ph
  | n + 1 => (ph.updateN n).update

/-- The current digest a hasher is bucketed by. -/
def dg (H : List Byte → HashV) (ph : ProgressiveHasher) : HashV :=
  (ph.current_hash H).1

/-! ## `HasherSet` (src/duped/src/hasher.rs 63-92)

The `HashMap<Hash, Vec<ProgressiveHasher>>` is modelled as an association
list with unique keys; `insert` pushes into the bucket keyed by the
hasher's current digest. -/

abbrev HasherSet := List (HashV × List ProgressiveHasher)

def insertBucket (d : HashV) (ph : ProgressiveHasher) : HasherSet → HasherSet
  | [] => [(d, [ph])]
  | (k, b) :: rest =>
    if k = d then (k, b ++ [ph]) :: rest else (k, b) :: insertBucket d ph rest

/-- `HasherSet::insert`. -/
def HasherSet.insertH (H : List Byte → HashV) (s : HasherSet) (ph : ProgressiveHasher) :
    HasherSet :=
  insertBucket (dg H ph) ph s

/-- Building a `HasherSet` by inserting a round's hashers in order. -/
def HasherSet.ofList (H : List Byte → HashV) (hs : List ProgressiveHasher) : HasherSet :=
  hs.foldl (HasherSet.insertH H) []

/-- `HasherSet::filter_unfinished_duplicates`: singleton buckets are
finished, larger buckets continue. -/
def filterUnfinishedDuplicates :
    HasherSet → List ProgressiveHasher × List ProgressiveHasher
  | [] => ([], [])
  | (_, b) :: rest =>
    let r := filterUnfinishedDuplicates rest
    if b.length = 1 then (b ++ r.1, r.2) else (r.1, b ++ r.2)

/-! ## Hash cache (src/src/db.rs, src/duped/src/lib.rs 280-312)

`filetime::FileTime` carries seconds and nanoseconds;
`unix_seconds()` drops the nanoseconds.  The sqlite table keyed by path is
modelled as an association list; `insert` is the upsert of the
`ON CONFLICT (path) DO UPDATE` statement. -/

structure FileTimeM where
  seconds : Int
  nanos : Nat
deriving DecidableEq, Repr

def FileTimeM.unix_seconds (t : FileTimeM) : Int := t.seconds

structure DbEntry where
  mtime : Int
  size : Nat
  hash : HashV
deriving DecidableEq, Repr

abbrev Cache := List (FPath × DbEntry)

/-- `HashDb::select`. -/
def cacheSelect : Cache → FPath → Option DbEntry
  | [], _ => none
  | (k, v) :: rest, p => if k = p then some v else cacheSelect rest p

/-- `HashDb::insert` (upsert on the path primary key). -/
def cacheInsert : Cache → FPath → DbEntry → Cache
  | [], p, v => [(p, v)]
  | (k, w) :: rest, p, v =>
    if k = p then (p, v) :: rest else (k, w) :: cacheInsert rest p v

def hashAndStore (H : List Byte → HashV) (cache : Cache) (p : FPath)
    (file : Except Nat (List (List Byte))) (mtime : FileTimeM) :
    Except Nat (Nat × HashV) × Cache × Bool :=
  match file with
  | Except.ok chunks =>
    let r := hash_file H chunks
    (Except.ok r, cacheInsert cache p ⟨mtime.unix_seconds, r.1, r.2⟩, true)
  | Except.error e => (Except.error e, cache, true)

/-- One iteration of `hasher_task_with_caching` for a received task
`(path, file, mtime)`: the returned triple is the message sent to the
collector, the cache after the step, and whether the file was hashed.
The file is its chunk decomposition, or the read error `hash_file` hits. -/
def hasherStep (H : List Byte → HashV) (cache : Cache) (p : FPath)
    (file : Except Nat (List (List Byte))) (mtime : FileTimeM) :
    Except Nat (Nat × HashV) × Cache × Bool :=
  match cacheSelect cache p with
  | some entry =>
    if entry.mtime = mtime.unix_seconds then
      (Except.ok (entry.size, entry.hash), cache, false)
    else hashAndStore H cache p file mtime
  | none => hashAndStore H cache p file mtime

/-! ## Sqlite errors and `retry_on_busy` (src/src/db.rs 77-91) -/

inductive SqliteCode where
  | databaseBusy
  | otherCode (n : Nat)
deriving DecidableEq, Repr

inductive RsqError where
  | sqliteFailure (code : SqliteCode) (extendedCode : Int)
  | otherError (tag : Nat)
deriving DecidableEq, Repr

/-- The pattern `Err(SqliteFailure(ffi::Error { code: DatabaseBusy, extended_code: 5 }, _))`. -/
def isBusyResult {T : Type} : Except RsqError T → Bool
  | Except.error (RsqError.sqliteFailure c e) =>
    decide (c = SqliteCode.databaseBusy) && decide (e = (5 : Int))
  | _ => false

/-- `retry_on_busy`: the successive calls of the closure `f` are the
results `f 0, f 1, ...`; the loop yields and retries on busy.  Fuel makes
the possibly diverging loop total: `none` means the loop was still
retrying after `fuel` attempts. -/
def retryOnBusyFuel {T : Type} : Nat → (Nat → Except RsqError T) → Option (Except RsqError T)
  | 0, _ => none
  | n + 1, f =>
    if isBusyResult (f 0) then retryOnBusyFuel n (fun k => f (k + 1))
    else some (f 0)

/-! ## The join phase of `find` (src/duped/src/lib.rs 158-168)

`t.join().expect(..).expect("db operation failed")` is run for each
worker in order; the second `expect` panics (modelled `none`) when the
worker returned a db error.  Only when every join succeeds does `find`
return the collector's result. -/

def joinWorkers (results : List (Except RsqError Unit)) (collected : DeduperResult) :
    Option DeduperResult :=
  match results with
  | [] => some collected
  | Except.ok _ :: rest => joinWorkers rest collected
  | Except.error _ :: _ => none

/-! ## Filesystem operations per thread (src/duped/src/lib.rs 94-264)

Which filesystem side effects the walker (driver) thread and a hashing
worker perform for one file, in program order, transliterated from the
loop body of `find` and from `hasher_task`. -/

inductive FsOp where
  | readDirEntry
  | statMeta
  | openHandle
  | readBytes
deriving DecidableEq, Repr

structure WalkEntry where
  isDir : Bool
  isSymlink : Bool
  metaOk : Bool
  included : Bool
deriving DecidableEq, Repr

/-- Operations of the walker thread for one yielded entry: the `WalkDir`
yield, the `is_dir`/`is_symlink` checks, `path.metadata()`, the filter
(metadata only), then `File::open(&path)` for a dispatched file. -/
def walkerOpsFor (e : WalkEntry) : List FsOp :=
  FsOp.readDirEntry :: FsOp.statMeta ::
    (if e.isDir || e.isSymlink then []
     else FsOp.statMeta ::
       (if !e.metaOk then []
        else if !e.included then []
        else [FsOp.openHandle]))

/-- Operations of a hashing worker for one received task: `hash_file`
reads the handle it was given; on a cache hit nothing is read.  The
worker never opens the handle — it receives it over the channel. -/
def workerOpsFor (cacheHit : Bool) : List FsOp :=
  if cacheHit then [] else [FsOp.readBytes]

/-! ## `same_content` (src/duped-cli/src/main.rs 235-254)

Both files are read through `BufReader`s with the same capacity; the
chunks a reader yields for a file with byte list `f` are the successive
`cap`-byte slices.  Any chunk mismatch returns `false`; both readers
hitting EOF together returns `true`. -/

def sameContent (cap : Nat) (f1 f2 : List Byte) : Bool :=
  if _h : f1.take cap = f2.take cap then
    if f1.take cap = [] then true
    else sameContent cap (f1.drop cap) (f2.drop cap)
  else false
termination_by f1.length
decreasing_by
  rename_i hne
  have hc : cap ≠ 0 := by
    intro h0
    simp [h0] at hne
  have hf : f1 ≠ [] := by
    intro h0
    simp [h0] at hne
  have : 0 < f1.length := List.length_pos.mpr hf
  simp only [List.length_drop]
  omega

/-! ## Proof-side specification functions -/

/-- The bucket stored under digest `d` (first matching key). -/
def bucketOf : HasherSet → HashV → List ProgressiveHasher
  | [], _ => []
  | (k, b) :: rest, d => if k = d then b else bucketOf rest d

/-- Well-formedness maintained by `HasherSet::insert`: unique keys,
nonempty buckets, every hasher filed under its own current digest. -/
def SetWF (H : List Byte → HashV) (s : HasherSet) : Prop :=
  (s.map Prod.fst).Nodup ∧ ∀ p ∈ s, p.2 ≠ [] ∧ ∀ x ∈ p.2, dg H x = p.1

/-- All hashers stored in a set, in bucket order. -/
def joinB : HasherSet → List ProgressiveHasher
  | [] => []
  | (_, b) :: rest => b ++ joinB rest

/-- The hashers of a round that share `ph`'s current digest. -/
def peers (H : List Byte → HashV) (hs : List ProgressiveHasher)
    (ph : ProgressiveHasher) : List ProgressiveHasher :=
  hs.filter (fun x => dg H x == dg H ph)

/-- The group the processed messages `ms` induce for hash `h`. -/
def groupOf (ms : List OkMsg) (h : HashV) : List FileEntry :=
  (ms.filter (fun m => m.hash == h)).map (fun m => ⟨m.path, m.size⟩)

/-- Messages with equal hashes carry equal sizes (collision resistance of
the hash modulo sizes; guarantees the `assert_eq!` in `push` never fires). -/
def SzCons (ms : List OkMsg) : Prop :=
  ∀ m1 ∈ ms, ∀ m2 ∈ ms, m1.hash = m2.hash → m1.size = m2.size

/-- Collector invariant: the map groups exactly the processed messages. -/
def Inv (ms : List OkMsg) (r : DeduperResult) : Prop :=
  (∀ h g, lookupH r.hashes h = some g →
    g.files = groupOf ms h ∧ g.files ≠ [] ∧ ∀ e ∈ g.files, e.size = g.file_size) ∧
  (∀ h, lookupH r.hashes h = none → groupOf ms h = [])

/-! ## Shared lemmas -/

theorem hashFileLoop_spec (H : List Byte → HashV) :
    ∀ (cs : List (List Byte)) (absorbed : List Byte) (size : Nat),
      hashFileLoop H absorbed size cs =
        (size + cs.flatten.length, H (absorbed ++ cs.flatten)) := by
  intro cs
  induction cs with
  | nil => intro a s; simp [hashFileLoop]
  | cons c cs ih =>
    intro a s
    simp only [hashFileLoop, ih, List.flatten_cons, List.append_assoc,
      List.length_append, Nat.add_assoc]

theorem hash_file_spec (H : List Byte → HashV) (chunks : List (List Byte)) :
    hash_file H chunks = (chunks.flatten.length, H chunks.flatten) := by
  simp [hash_file, hashFileLoop_spec]

theorem update_file_path (ph : ProgressiveHasher) : ph.update.file_path = ph.file_path := rfl

theorem new_file_path (fp : FilePathM) : (ProgressiveHasher.new fp).file_path = fp := rfl

theorem updateN_file_path (ph : ProgressiveHasher) (k : Nat) :
    (ph.updateN k).file_path = ph.file_path := by
  induction k with
  | zero => rfl
  | succ k ih => rw [ProgressiveHasher.updateN, update_file_path, ih]

theorem new_updateN_len (fp : FilePathM) (k : Nat) :
    ((ProgressiveHasher.new fp).updateN k).len_hashed =
      min (k * MIN_TO_READ) fp.content.length := by
  induction k with
  | zero => simp [ProgressiveHasher.updateN, ProgressiveHasher.new]
  | succ k ih =>
    show (((ProgressiveHasher.new fp).updateN k).update).len_hashed = _
    simp only [ProgressiveHasher.update, updateN_file_path, new_file_path, ih,
      Nat.succ_mul]
    generalize k * MIN_TO_READ = a
    omega

/-- C9 helper: the ceiling multiple covers the size. -/
theorem ceil_mul_cover (s : Nat) : s ≤ ((s + MIN_TO_READ - 1) / MIN_TO_READ) * MIN_TO_READ := by
  have h : MIN_TO_READ = 16777216 := by norm_num [MIN_TO_READ]
  rw [h]
  omega

/-- C9: each successful `ProgressiveHasher::update` advances `len_hashed`
by exactly `min(CHUNK, size − len_hashed)` with `CHUNK = MIN_TO_READ
= 16 MiB` (at least 1 MiB); `len_hashed ≤ size` is an invariant; from a
fresh hasher, after `⌈size / CHUNK⌉` updates `current_hash` reports done;
and done is reported iff `len_hashed` equals the file's size. -/
theorem progressive_hasher_update_spec :
    (MIN_TO_READ = 16 * 1024 * 1024 ∧ 1024 * 1024 ≤ MIN_TO_READ) ∧
    (∀ ph : ProgressiveHasher,
      ph.update.len_hashed =
        ph.len_hashed + min MIN_TO_READ (ph.file_path.content.length - ph.len_hashed)) ∧
    (∀ ph : ProgressiveHasher, ph.len_hashed ≤ ph.file_path.content.length →
      ph.update.len_hashed ≤ ph.file_path.content.length) ∧
    (∀ (H : List Byte → HashV) (fp : FilePathM),
      (((ProgressiveHasher.new fp).updateN
          ((fp.content.length + MIN_TO_READ - 1) / MIN_TO_READ)).current_hash H).2 = true) ∧
    (∀ (H : List Byte → HashV) (ph : ProgressiveHasher),
      (ph.current_hash H).2 = true ↔ ph.len_hashed = ph.file_path.content.length) := by
  refine ⟨⟨rfl, by norm_num [MIN_TO_READ]⟩, ?_, ?_, ?_, ?_⟩
  · intro ph
    simp only [ProgressiveHasher.update]
    omega
  · intro ph hle
    simp only [ProgressiveHasher.update]
    omega
  · intro H fp
    have h1 := new_updateN_len fp ((fp.content.length + MIN_TO_READ - 1) / MIN_TO_READ)
    have h2 := ceil_mul_cover fp.content.length
    simp only [ProgressiveHasher.current_hash, updateN_file_path, new_file_path, h1,
      beq_iff_eq]
    omega
  · intro H ph
    simp [ProgressiveHasher.current_hash]

/-- C9 witness: the invariant hypothesis discharged at a concrete hasher. -/
theorem progressive_hasher_update_spec_witness :
    (⟨⟨0, [1, 2, 3]⟩, [1], 1⟩ : ProgressiveHasher).update.len_hashed ≤ 3 :=
  progressive_hasher_update_spec.2.2.1 ⟨⟨0, [1, 2, 3]⟩, [1], 1⟩ (by decide)

/-- C7: `same_content` returns `true` exactly when the two byte contents
are identical (readers of equal positive capacity advancing in lockstep);
any mismatching chunk yields `false`, and equality holds exactly when
both readers reach EOF together. -/
theorem same_content_iff_eq (cap : Nat) (hcap : 0 < cap) (f1 f2 : List Byte) :
    sameContent cap f1 f2 = true ↔ f1 = f2 := by
  have main : ∀ (n : Nat) (f1 f2 : List Byte), f1.length = n →
      (sameContent cap f1 f2 = true ↔ f1 = f2) := by
    intro n
    induction n using Nat.strong_induction_on with
    | _ n ih =>
      intro f1 f2 hlen
      rw [sameContent]
      by_cases heq : f1.take cap = f2.take cap
      · rw [dif_pos heq]
        by_cases hnil : f1.take cap = []
        · rw [if_pos hnil]
          have h1 : f1 = [] := by
            rcases List.take_eq_nil_iff.mp hnil with h | h
            · omega
            · exact h
          have h2 : f2 = [] := by
            rcases List.take_eq_nil_iff.mp (heq.symm.trans hnil) with h | h
            · omega
            · exact h
          simp [h1, h2]
        · rw [if_neg hnil]
          have hf1 : f1 ≠ [] := by
            intro h0
            apply hnil
            rw [h0, List.take_nil]
          have hlt : (f1.drop cap).length < n := by
            rw [← hlen]
            have : 0 < f1.length := List.length_pos.mpr hf1
            simp only [List.length_drop]
            omega
          rw [ih _ hlt (f1.drop cap) (f2.drop cap) rfl]
          constructor
          · intro h
            calc f1 = f1.take cap ++ f1.drop cap := (List.take_append_drop cap f1).symm
              _ = f2.take cap ++ f2.drop cap := by rw [heq, h]
              _ = f2 := List.take_append_drop cap f2
          · intro h
            rw [h]
      · rw [dif_neg heq]
        constructor
        · intro h
          exact absurd h (by simp)
        · intro h
          exact absurd (by rw [h]) heq
  exact main f1.length f1 f2 rfl

/-- C7 witness: the capacity hypothesis discharged at `BufReader`'s
default 8 KiB capacity on concrete files. -/
theorem same_content_iff_eq_witness :
    (sameContent 8192 [1, 2] [1, 2] = true ↔ ([1, 2] : List Byte) = [1, 2]) ∧
    (sameContent 8192 [1, 2] [1, 3] = true ↔ ([1, 2] : List Byte) = [1, 3]) :=
  ⟨same_content_iff_eq 8192 (by decide) [1, 2] [1, 2],
   same_content_iff_eq 8192 (by decide) [1, 2] [1, 3]⟩

/-- C8: whenever `retry_on_busy` returns, the returned value is the first
non-busy result of the closure, passed through unchanged (never a busy
error), and every earlier attempt was busy; conversely the loop keeps
reissuing the closure for as long as it returns busy, returning as soon
as an attempt within the fuel bound is non-busy. -/
theorem retry_on_busy_spec {T : Type} (fuel : Nat) (f : Nat → Except RsqError T) :
    (∀ v, retryOnBusyFuel fuel f = some v →
      ∃ k, k < fuel ∧ v = f k ∧ isBusyResult v = false ∧
        ∀ j, j < k → isBusyResult (f j) = true) ∧
    (∀ k, k < fuel → isBusyResult (f k) = false →
      (retryOnBusyFuel fuel f).isSome = true) := by
  induction fuel generalizing f with
  | zero =>
    constructor
    · intro v h
      simp [retryOnBusyFuel] at h
    · intro k hk
      omega
  | succ n ih =>
    by_cases hb : isBusyResult (f 0) = true
    · have hred : retryOnBusyFuel (n + 1) f = retryOnBusyFuel n (fun k => f (k + 1)) := by
        simp [retryOnBusyFuel, hb]
      constructor
      · intro v h
        rw [hred] at h
        obtain ⟨k, hk, hv, hnb, hall⟩ := (ih (fun k => f (k + 1))).1 v h
        refine ⟨k + 1, by omega, hv, hnb, ?_⟩
        intro j hj
        cases j with
        | zero => exact hb
        | succ j => exact hall j (by omega)
      · intro k hk hnb
        rw [hred]
        cases k with
        | zero => rw [hnb] at hb; exact absurd hb (by simp)
        | succ k => exact (ih (fun k => f (k + 1))).2 k (by omega) hnb
    · have hb' : isBusyResult (f 0) = false := by
        simpa using hb
      have hred : retryOnBusyFuel (n + 1) f = some (f 0) := by
        simp [retryOnBusyFuel, hb']
      constructor
      · intro v h
        rw [hred] at h
        refine ⟨0, by omega, ?_, ?_, ?_⟩
        · exact (Option.some_injective _ h).symm
        · rw [Option.some_injective _ h] at hb'
          exact hb'
        · intro j hj
          omega
      · intro k hk hnb
        rw [hred]
        rfl

/-- C8 witness: a closure that is busy once then succeeds, with the
hypotheses discharged concretely. -/
theorem retry_on_busy_spec_witness :
    (retryOnBusyFuel 2 (fun k =>
      if k = 0 then Except.error (RsqError.sqliteFailure SqliteCode.databaseBusy 5)
      else (Except.ok 3 : Except RsqError Nat))).isSome = true :=
  (retry_on_busy_spec 2 _).2 1 (by decide) (by decide)

/-- C5 counterexample: a worker terminating with a non-busy cache error
makes the join phase of `find` panic (`none`): `find` does not complete
and does not return the collector's entries. -/
theorem find_join_counterexample :
    joinWorkers [Except.error (RsqError.sqliteFailure (SqliteCode.otherCode 1) 1)]
        ⟨[(7, ⟨[⟨0, 3⟩], 3⟩)], false⟩ = none ∧
    isBusyResult
        (Except.error (RsqError.sqliteFailure (SqliteCode.otherCode 1) 1) :
          Except RsqError Unit) = false := by
  decide

/-- C5 amended: `find` completes and returns the collector's result iff
every worker terminated without a cache error; any worker's cache error
is fatal to the engine (a panic at join time). -/
theorem find_join_completes_iff (ws : List (Except RsqError Unit)) (d : DeduperResult) :
    joinWorkers ws d = some d ↔ ∀ w ∈ ws, w = Except.ok () := by
  induction ws with
  | nil => simp [joinWorkers]
  | cons w rest ih =>
    cases w with
    | ok u =>
      cases u
      simp [joinWorkers, ih]
    | error e => simp [joinWorkers]

/-- C5 amended witness. -/
theorem find_join_completes_iff_witness :
    joinWorkers [Except.ok ()] ⟨[], false⟩ = some ⟨[], false⟩ :=
  (find_join_completes_iff [Except.ok ()] ⟨[], false⟩).mpr (by simp)

/-- C6 counterexample: for an included regular file the walker thread
itself performs the `File::open` — file handles are not opened
exclusively by the hashing workers, which open no handle at all. -/
theorem walker_opens_handle_counterexample :
    FsOp.openHandle ∈ walkerOpsFor ⟨false, false, true, true⟩ ∧
    FsOp.openHandle ∉ workerOpsFor true ∧
    FsOp.openHandle ∉ workerOpsFor false := by
  decide

/-- C6 amended: the walker thread reads only directory entries and
metadata and never reads file contents, but it is the walker that opens
the file handle for every dispatched file and hands it to a worker;
content reads happen only on hashing workers (and only on a cache miss),
which never open handles themselves. -/
theorem walker_never_reads_contents (e : WalkEntry) (hit : Bool) :
    FsOp.readBytes ∉ walkerOpsFor e ∧
    (e.isDir = false → e.isSymlink = false → e.metaOk = true → e.included = true →
      FsOp.openHandle ∈ walkerOpsFor e) ∧
    (FsOp.readBytes ∈ workerOpsFor hit ↔ hit = false) ∧
    FsOp.openHandle ∉ workerOpsFor hit := by
  obtain ⟨d, s, m, i⟩ := e
  cases d <;> cases s <;> cases m <;> cases i <;> cases hit <;> decide

/-- C6 amended witness. -/
theorem walker_never_reads_contents_witness :
    FsOp.readBytes ∉ walkerOpsFor ⟨false, false, true, true⟩ ∧
    FsOp.openHandle ∈ walkerOpsFor ⟨false, false, true, true⟩ ∧
    FsOp.readBytes ∈ workerOpsFor false ∧
    FsOp.openHandle ∉ workerOpsFor false := by
  have h := walker_never_reads_contents ⟨false, false, true, true⟩ false
  exact ⟨h.1, h.2.1 rfl rfl rfl rfl, h.2.2.1.mpr rfl, h.2.2.2⟩

/-- C3: with a cache configured, a worker skips hashing and reports the
stored `(size, hash)` iff the cache holds an entry for the path whose
stored mtime equals the file's current mtime (size is never consulted);
in every other case it hashes, and on hashing success upserts the cache
row for that path; a hashing error leaves the cache unchanged. -/
theorem hasher_caching_step_spec (H : List Byte → HashV) (cache : Cache) (p : FPath)
    (file : Except Nat (List (List Byte))) (mtime : FileTimeM) :
    ((hasherStep H cache p file mtime).2.2 = false ↔
      ∃ e, cacheSelect cache p = some e ∧ e.mtime = mtime.unix_seconds) ∧
    (∀ e, cacheSelect cache p = some e → e.mtime = mtime.unix_seconds →
      hasherStep H cache p file mtime = (Except.ok (e.size, e.hash), cache, false)) ∧
    (∀ chunks, file = Except.ok chunks → (hasherStep H cache p file mtime).2.2 = true →
      hasherStep H cache p file mtime =
        (Except.ok (chunks.flatten.length, H chunks.flatten),
          cacheInsert cache p
            ⟨mtime.unix_seconds, chunks.flatten.length, H chunks.flatten⟩, true)) ∧
    (∀ err, file = Except.error err → (hasherStep H cache p file mtime).2.2 = true →
      hasherStep H cache p file mtime = (Except.error err, cache, true)) := by
  have hstore : ∀ chunks, hashAndStore H cache p (Except.ok chunks) mtime =
      (Except.ok (chunks.flatten.length, H chunks.flatten),
        cacheInsert cache p
          ⟨mtime.unix_seconds, chunks.flatten.length, H chunks.flatten⟩, true) := by
    intro chunks
    simp [hashAndStore, hash_file_spec]
  have hcases : cacheSelect cache p = none ∨ ∃ e0, cacheSelect cache p = some e0 := by
    cases cacheSelect cache p
    · exact Or.inl rfl
    · exact Or.inr ⟨_, rfl⟩
  rcases hcases with hsel | ⟨e0, hsel⟩
  · have hstep : hasherStep H cache p file mtime = hashAndStore H cache p file mtime := by
      simp [hasherStep, hsel]
    refine ⟨?_, ?_, ?_, ?_⟩
    · rw [hstep]
      constructor
      · intro hdid
        exfalso
        cases file with
        | ok chunks => rw [hstore] at hdid; simp at hdid
        | error err => simp [hashAndStore] at hdid
      · rintro ⟨e, he, -⟩
        rw [hsel] at he
        exact absurd he (by simp)
    · intro e he
      rw [hsel] at he
      exact absurd he (by simp)
    · intro chunks hf _
      rw [hstep, hf, hstore]
    · intro err hf _
      rw [hstep, hf]
      simp [hashAndStore]
  · by_cases hmt : e0.mtime = mtime.unix_seconds
    · have hstep : hasherStep H cache p file mtime =
          (Except.ok (e0.size, e0.hash), cache, false) := by
        simp [hasherStep, hsel, hmt]
      refine ⟨?_, ?_, ?_, ?_⟩
      · constructor
        · intro _
          exact ⟨e0, hsel, hmt⟩
        · intro _
          rw [hstep]
      · intro e he hm
        rw [hsel] at he
        cases Option.some_injective _ he
        exact hstep
      · intro chunks _ hdid
        rw [hstep] at hdid
        simp at hdid
      · intro err _ hdid
        rw [hstep] at hdid
        simp at hdid
    · have hstep : hasherStep H cache p file mtime = hashAndStore H cache p file mtime := by
        simp [hasherStep, hsel, hmt]
      refine ⟨?_, ?_, ?_, ?_⟩
      · rw [hstep]
        constructor
        · intro hdid
          exfalso
          cases file with
          | ok chunks => rw [hstore] at hdid; simp at hdid
          | error err => simp [hashAndStore] at hdid
        · rintro ⟨e, he, hm⟩
          rw [hsel] at he
          cases Option.some_injective _ he
          exact absurd hm hmt
      · intro e he hm
        rw [hsel] at he
        cases Option.some_injective _ he
        exact absurd hm hmt
      · intro chunks hf _
        rw [hstep, hf, hstore]
      · intro err hf _
        rw [hstep, hf]
        simp [hashAndStore]

/-- C3 witness: a cache hit with matching mtime (and mismatching size)
reports the stored pair without hashing. -/
theorem hasher_caching_step_spec_witness :
    hasherStep (fun c => c.headD 0) [(0, ⟨100, 5, 9⟩)] 0 (Except.ok [[1, 2]]) ⟨100, 7⟩ =
      (Except.ok (5, 9), [(0, ⟨100, 5, 9⟩)], false) :=
  (hasher_caching_step_spec (fun c => c.headD 0) [(0, ⟨100, 5, 9⟩)] 0
    (Except.ok [[1, 2]]) ⟨100, 7⟩).2.1 ⟨100, 5, 9⟩ (by decide) (by decide)

/-- C10: the freshness check compares mtimes truncated to whole unix
seconds; modifying a file's content without changing the unix-second
value of its mtime makes the next cached run return the stale stored
hash without rehashing. -/
theorem cache_mtime_truncation_stale (H : List Byte → HashV) (p : FPath)
    (c1 c2 : List (List Byte)) (t1 t2 : FileTimeM)
    (hsec : t2.seconds = t1.seconds)
    (hne : H c1.flatten ≠ H c2.flatten) :
    (hasherStep H (hasherStep H [] p (Except.ok c1) t1).2.1 p (Except.ok c2) t2).1 =
      Except.ok (c1.flatten.length, H c1.flatten) ∧
    (hasherStep H (hasherStep H [] p (Except.ok c1) t1).2.1 p (Except.ok c2) t2).2.2 = false ∧
    (hasherStep H (hasherStep H [] p (Except.ok c1) t1).2.1 p (Except.ok c2) t2).1 ≠
      Except.ok (c2.flatten.length, H c2.flatten) := by
  have h1 : (hasherStep H [] p (Except.ok c1) t1).2.1 =
      [(p, ⟨t1.seconds, c1.flatten.length, H c1.flatten⟩)] := by
    simp [hasherStep, cacheSelect, hashAndStore, hash_file_spec, cacheInsert,
      FileTimeM.unix_seconds]
  rw [h1]
  have h2 : hasherStep H [(p, ⟨t1.seconds, c1.flatten.length, H c1.flatten⟩)] p
      (Except.ok c2) t2 =
      (Except.ok (c1.flatten.length, H c1.flatten),
        [(p, ⟨t1.seconds, c1.flatten.length, H c1.flatten⟩)], false) := by
    simp [hasherStep, cacheSelect, FileTimeM.unix_seconds, hsec]
  rw [h2]
  refine ⟨rfl, rfl, ?_⟩
  intro h
  apply hne
  exact congrArg Prod.snd (Except.ok.inj h)

/-- C10 witness: different nanoseconds and different content, same
unix second. -/
theorem cache_mtime_truncation_stale_witness :
    (hasherStep (fun c => c.headD 0)
        (hasherStep (fun c => c.headD 0) [] 0 (Except.ok [[1]]) ⟨100, 1⟩).2.1 0
        (Except.ok [[2]]) ⟨100, 999⟩).1 = Except.ok (1, 1) ∧
    (hasherStep (fun c => c.headD 0)
        (hasherStep (fun c => c.headD 0) [] 0 (Except.ok [[1]]) ⟨100, 1⟩).2.1 0
        (Except.ok [[2]]) ⟨100, 999⟩).2.2 = false := by
  have h := cache_mtime_truncation_stale (fun c => c.headD 0) 0 [[1]] [[2]]
    ⟨100, 1⟩ ⟨100, 999⟩ rfl (by decide)
  exact ⟨h.1, h.2.1⟩

/-! ## C2: the `HasherSet` partition -/

theorem bucketOf_insertBucket (d0 : HashV) (ph : ProgressiveHasher) (s : HasherSet)
    (d : HashV) :
    bucketOf (insertBucket d0 ph s) d =
      if d0 = d then bucketOf s d ++ [ph] else bucketOf s d := by
  induction s with
  | nil =>
    by_cases hd : d0 = d <;> simp [insertBucket, bucketOf, hd]
  | cons kb rest ih =>
    obtain ⟨k, b⟩ := kb
    by_cases hk : k = d0
    · subst hk
      by_cases hd : k = d <;> simp [insertBucket, bucketOf, hd]
    · by_cases hd : k = d
      · subst hd
        have : k ≠ d0 := hk
        simp [insertBucket, hk, bucketOf, if_neg (Ne.symm this)]
      · simp [insertBucket, hk, bucketOf, hd, ih]

theorem bucketOf_foldl (H : List Byte → HashV) (hs : List ProgressiveHasher) :
    ∀ (acc : HasherSet) (d : HashV),
      bucketOf (hs.foldl (HasherSet.insertH H) acc) d =
        bucketOf acc d ++ hs.filter (fun x => dg H x == d) := by
  induction hs with
  | nil => intro acc d; simp
  | cons x hs ih =>
    intro acc d
    rw [List.foldl_cons, ih, HasherSet.insertH, bucketOf_insertBucket]
    by_cases hd : dg H x = d
    · simp [hd, List.filter_cons]
    · simp [hd, List.filter_cons]

theorem bucketOf_ofList (H : List Byte → HashV) (hs : List ProgressiveHasher) (d : HashV) :
    bucketOf (HasherSet.ofList H hs) d = hs.filter (fun x => dg H x == d) := by
  rw [HasherSet.ofList, bucketOf_foldl]
  simp [bucketOf]

theorem keys_insertBucket (d0 : HashV) (ph : ProgressiveHasher) (s : HasherSet) :
    (insertBucket d0 ph s).map Prod.fst =
      if d0 ∈ s.map Prod.fst then s.map Prod.fst else s.map Prod.fst ++ [d0] := by
  induction s with
  | nil => simp [insertBucket]
  | cons kb rest ih =>
    obtain ⟨k, b⟩ := kb
    by_cases hk : k = d0
    · subst hk
      simp [insertBucket]
    · by_cases hmem : d0 ∈ rest.map Prod.fst
      · simp [insertBucket, hk, ih, hmem, Ne.symm hk]
      · simp [insertBucket, hk, ih, hmem, Ne.symm hk]

theorem wf_insertBucket (H : List Byte → HashV) (d0 : HashV) (ph : ProgressiveHasher)
    (hd0 : dg H ph = d0) :
    ∀ s : HasherSet, SetWF H s → SetWF H (insertBucket d0 ph s) := by
  intro s
  induction s with
  | nil =>
    intro _
    refine ⟨by simp [insertBucket], ?_⟩
    intro p hp
    simp only [insertBucket, List.mem_singleton] at hp
    subst hp
    refine ⟨by simp, ?_⟩
    intro x hx
    simp only [List.mem_singleton] at hx
    subst hx
    exact hd0
  | cons kb rest ih =>
    rintro ⟨hnd, hbkt⟩
    obtain ⟨k, b⟩ := kb
    simp only [List.map_cons, List.nodup_cons] at hnd
    by_cases hk : k = d0
    · subst hk
      rw [insertBucket, if_pos rfl]
      refine ⟨by simpa using hnd, ?_⟩
      intro p hp
      rcases List.mem_cons.mp hp with hp | hp
      · subst hp
        refine ⟨by simp, ?_⟩
        intro x hx
        rcases List.mem_append.mp hx with hx | hx
        · exact (hbkt (k, b) (List.mem_cons_self _ _)).2 x hx
        · rw [List.mem_singleton.mp hx, hd0]
      · exact hbkt p (List.mem_cons_of_mem _ hp)
    · rw [insertBucket, if_neg hk]
      have hrest : SetWF H rest :=
        ⟨hnd.2, fun p hp => hbkt p (List.mem_cons_of_mem _ hp)⟩
      obtain ⟨ihnd, ihbkt⟩ := ih hrest
      refine ⟨?_, ?_⟩
      · rw [List.map_cons, List.nodup_cons]
        refine ⟨?_, ihnd⟩
        rw [keys_insertBucket]
        by_cases hmem : d0 ∈ rest.map Prod.fst
        · rw [if_pos hmem]
          exact hnd.1
        · rw [if_neg hmem]
          intro hcontra
          rcases List.mem_append.mp hcontra with hc | hc
          · exact hnd.1 hc
          · exact hk (List.mem_singleton.mp hc)
      · intro p hp
        rcases List.mem_cons.mp hp with hp | hp
        · subst hp
          exact hbkt (k, b) (List.mem_cons_self _ _)
        · exact ihbkt p hp

theorem wf_ofList (H : List Byte → HashV) (hs : List ProgressiveHasher) :
    SetWF H (HasherSet.ofList H hs) := by
  rw [HasherSet.ofList]
  have main : ∀ (l : List ProgressiveHasher) (acc : HasherSet), SetWF H acc →
      SetWF H (l.foldl (HasherSet.insertH H) acc) := by
    intro l
    induction l with
    | nil => intro acc h; exact h
    | cons x l ih =>
      intro acc h
      exact ih _ (wf_insertBucket H _ x rfl acc h)
  exact main hs [] ⟨by simp, by simp⟩

theorem mem_of_bucketOf_ne (d : HashV) :
    ∀ s : HasherSet, bucketOf s d ≠ [] → (d, bucketOf s d) ∈ s := by
  intro s
  induction s with
  | nil => intro h; exact absurd rfl h
  | cons kb rest ih =>
    obtain ⟨k, b⟩ := kb
    by_cases hk : k = d
    · subst hk
      rw [bucketOf, if_pos rfl]
      intro _
      exact List.mem_cons_self _ _
    · rw [bucketOf, if_neg hk]
      intro h
      exact List.mem_cons_of_mem _ (ih h)

theorem bucketOf_of_mem (d : HashV) (b : List ProgressiveHasher) :
    ∀ s : HasherSet, (s.map Prod.fst).Nodup → (d, b) ∈ s → bucketOf s d = b := by
  intro s
  induction s with
  | nil => intro _ hm; cases hm
  | cons kb rest ih =>
    obtain ⟨k, c⟩ := kb
    intro hnd hm
    simp only [List.map_cons, List.nodup_cons] at hnd
    rcases List.mem_cons.mp hm with hm | hm
    · have hk : d = k := congrArg Prod.fst hm
      have hc : b = c := congrArg Prod.snd hm
      subst hk
      subst hc
      rw [bucketOf, if_pos rfl]
    · have hk : k ≠ d := by
        intro hkd
        subst hkd
        exact hnd.1 (List.mem_map_of_mem Prod.fst hm)
      rw [bucketOf, if_neg hk]
      exact ih hnd.2 hm

theorem fud_cons_one (k : HashV) (b : List ProgressiveHasher) (rest : HasherSet)
    (hb : b.length = 1) :
    filterUnfinishedDuplicates ((k, b) :: rest) =
      (b ++ (filterUnfinishedDuplicates rest).1, (filterUnfinishedDuplicates rest).2) := by
  simp [filterUnfinishedDuplicates, hb]

theorem fud_cons_ne (k : HashV) (b : List ProgressiveHasher) (rest : HasherSet)
    (hb : b.length ≠ 1) :
    filterUnfinishedDuplicates ((k, b) :: rest) =
      ((filterUnfinishedDuplicates rest).1, b ++ (filterUnfinishedDuplicates rest).2) := by
  simp [filterUnfinishedDuplicates, hb]

theorem mem_fud_left (s : HasherSet) (ph : ProgressiveHasher) :
    ph ∈ (filterUnfinishedDuplicates s).1 ↔
      ∃ p ∈ s, p.2.length = 1 ∧ ph ∈ p.2 := by
  induction s with
  | nil => simp [filterUnfinishedDuplicates]
  | cons kb rest ih =>
    obtain ⟨k, b⟩ := kb
    by_cases hb : b.length = 1
    · rw [fud_cons_one k b rest hb]
      simp only [List.mem_append, ih]
      constructor
      · rintro (hin | ⟨p, hp, hl, hin⟩)
        · exact ⟨(k, b), List.mem_cons_self _ _, hb, hin⟩
        · exact ⟨p, List.mem_cons_of_mem _ hp, hl, hin⟩
      · rintro ⟨p, hp, hl, hin⟩
        rcases List.mem_cons.mp hp with hp | hp
        · subst hp
          exact Or.inl hin
        · exact Or.inr ⟨p, hp, hl, hin⟩
    · rw [fud_cons_ne k b rest hb]
      simp only [ih]
      constructor
      · rintro ⟨p, hp, hl, hin⟩
        exact ⟨p, List.mem_cons_of_mem _ hp, hl, hin⟩
      · rintro ⟨p, hp, hl, hin⟩
        rcases List.mem_cons.mp hp with hp | hp
        · subst hp
          exact absurd hl hb
        · exact ⟨p, hp, hl, hin⟩

theorem mem_fud_right (s : HasherSet) (ph : ProgressiveHasher) :
    ph ∈ (filterUnfinishedDuplicates s).2 ↔
      ∃ p ∈ s, p.2.length ≠ 1 ∧ ph ∈ p.2 := by
  induction s with
  | nil => simp [filterUnfinishedDuplicates]
  | cons kb rest ih =>
    obtain ⟨k, b⟩ := kb
    by_cases hb : b.length = 1
    · rw [fud_cons_one k b rest hb]
      simp only [ih]
      constructor
      · rintro ⟨p, hp, hl, hin⟩
        exact ⟨p, List.mem_cons_of_mem _ hp, hl, hin⟩
      · rintro ⟨p, hp, hl, hin⟩
        rcases List.mem_cons.mp hp with hp | hp
        · subst hp
          exact absurd hb hl
        · exact ⟨p, hp, hl, hin⟩
    · rw [fud_cons_ne k b rest hb]
      simp only [List.mem_append, ih]
      constructor
      · rintro (hin | ⟨p, hp, hl, hin⟩)
        · exact ⟨(k, b), List.mem_cons_self _ _, hb, hin⟩
        · exact ⟨p, List.mem_cons_of_mem _ hp, hl, hin⟩
      · rintro ⟨p, hp, hl, hin⟩
        rcases List.mem_cons.mp hp with hp | hp
        · subst hp
          exact Or.inl hin
        · exact Or.inr ⟨p, hp, hl, hin⟩

theorem joinB_insertBucket (d0 : HashV) (ph : ProgressiveHasher) (s : HasherSet) :
    (joinB (insertBucket d0 ph s)).Perm (ph :: joinB s) := by
  induction s with
  | nil => simp [insertBucket, joinB]
  | cons kb rest ih =>
    obtain ⟨k, b⟩ := kb
    by_cases hk : k = d0
    · rw [insertBucket, if_pos hk, joinB, joinB, List.append_assoc]
      exact List.perm_middle
    · rw [insertBucket, if_neg hk, joinB, joinB]
      exact (List.Perm.append_left b ih).trans List.perm_middle

theorem joinB_ofList (H : List Byte → HashV) (hs : List ProgressiveHasher) :
    (joinB (HasherSet.ofList H hs)).Perm hs := by
  rw [HasherSet.ofList]
  have main : ∀ (l : List ProgressiveHasher) (acc : HasherSet),
      (joinB (l.foldl (HasherSet.insertH H) acc)).Perm (joinB acc ++ l) := by
    intro l
    induction l with
    | nil => intro acc; simp
    | cons x l ih =>
      intro acc
      rw [List.foldl_cons]
      have h1 : (joinB (l.foldl (HasherSet.insertH H) (acc.insertH H x))).Perm
          (joinB (acc.insertH H x) ++ l) := ih _
      have h2 : (joinB (acc.insertH H x) ++ l).Perm ((x :: joinB acc) ++ l) :=
        (joinB_insertBucket _ x acc).append_right l
      exact (h1.trans h2).trans List.perm_middle.symm
  simpa [joinB] using main hs []

theorem fud_perm (s : HasherSet) :
    ((filterUnfinishedDuplicates s).1 ++ (filterUnfinishedDuplicates s).2).Perm (joinB s) := by
  induction s with
  | nil => simp [filterUnfinishedDuplicates, joinB]
  | cons kb rest ih =>
    obtain ⟨k, b⟩ := kb
    by_cases hb : b.length = 1
    · rw [fud_cons_one k b rest hb, joinB]
      show ((b ++ (filterUnfinishedDuplicates rest).1) ++
        (filterUnfinishedDuplicates rest).2).Perm (b ++ joinB rest)
      rw [List.append_assoc]
      exact List.Perm.append_left b ih
    · rw [fud_cons_ne k b rest hb, joinB]
      show ((filterUnfinishedDuplicates rest).1 ++
        (b ++ (filterUnfinishedDuplicates rest).2)).Perm (b ++ joinB rest)
      have h1 : (((filterUnfinishedDuplicates rest).1 ++ b) ++
            (filterUnfinishedDuplicates rest).2).Perm
          ((b ++ (filterUnfinishedDuplicates rest).1) ++
            (filterUnfinishedDuplicates rest).2) :=
        (List.perm_append_comm).append_right _
      rw [List.append_assoc, List.append_assoc] at h1
      exact h1.trans (List.Perm.append_left b ih)

/-- C2: `filter_unfinished_duplicates` on the set built from a round's
hashers returns as finished exactly the hashers whose current-digest
bucket is a singleton, returns every member of a bucket of two or more
for another chunk, and drops no hasher. -/
theorem filter_unfinished_partition (H : List Byte → HashV) (hs : List ProgressiveHasher) :
    (∀ ph, ph ∈ (filterUnfinishedDuplicates (HasherSet.ofList H hs)).1 ↔
      ph ∈ hs ∧ (peers H hs ph).length = 1) ∧
    (∀ ph, ph ∈ (filterUnfinishedDuplicates (HasherSet.ofList H hs)).2 ↔
      ph ∈ hs ∧ 2 ≤ (peers H hs ph).length) ∧
    ((filterUnfinishedDuplicates (HasherSet.ofList H hs)).1 ++
      (filterUnfinishedDuplicates (HasherSet.ofList H hs)).2).Perm hs := by
  have hwf := wf_ofList H hs
  have hbucket : ∀ ph, ph ∈ hs →
      bucketOf (HasherSet.ofList H hs) (dg H ph) = peers H hs ph := by
    intro ph _
    rw [bucketOf_ofList]
    rfl
  have hmem_peers : ∀ ph, ph ∈ hs → ph ∈ peers H hs ph := by
    intro ph hph
    rw [peers]
    exact List.mem_filter.mpr ⟨hph, by simp⟩
  have hforward : ∀ ph p, p ∈ HasherSet.ofList H hs → ph ∈ p.2 →
      ph ∈ hs ∧ p.2 = peers H hs ph := by
    intro ph p hp hin
    obtain ⟨d, b⟩ := p
    have hb : bucketOf (HasherSet.ofList H hs) d = b :=
      bucketOf_of_mem _ _ _ hwf.1 hp
    rw [bucketOf_ofList] at hb
    have hin' := hb ▸ hin
    have hmf := List.mem_filter.mp hin'
    have hdg : dg H ph = d := by simpa using hmf.2
    refine ⟨hmf.1, ?_⟩
    rw [← hb, ← hdg]
    rfl
  refine ⟨?_, ?_, ?_⟩
  · intro ph
    rw [mem_fud_left]
    constructor
    · rintro ⟨p, hp, hl, hin⟩
      obtain ⟨hph, hpeq⟩ := hforward ph p hp hin
      rw [hpeq] at hl
      exact ⟨hph, hl⟩
    · rintro ⟨hph, hl⟩
      refine ⟨(dg H ph, peers H hs ph), ?_, hl, hmem_peers ph hph⟩
      have hne : peers H hs ph ≠ [] :=
        List.ne_nil_of_mem (hmem_peers ph hph)
      have := mem_of_bucketOf_ne (dg H ph) (HasherSet.ofList H hs)
        (by rw [hbucket ph hph]; exact hne)
      rwa [hbucket ph hph] at this
  · intro ph
    rw [mem_fud_right]
    constructor
    · rintro ⟨p, hp, hl, hin⟩
      obtain ⟨hph, hpeq⟩ := hforward ph p hp hin
      rw [hpeq] at hl
      have hpos : 0 < (peers H hs ph).length :=
        List.length_pos.mpr (List.ne_nil_of_mem (hmem_peers ph hph))
      refine ⟨hph, ?_⟩
      omega
    · rintro ⟨hph, hl⟩
      refine ⟨(dg H ph, peers H hs ph), ?_,
        (by show (peers H hs ph).length ≠ 1; omega), hmem_peers ph hph⟩
      have hne : peers H hs ph ≠ [] :=
        List.ne_nil_of_mem (hmem_peers ph hph)
      have := mem_of_bucketOf_ne (dg H ph) (HasherSet.ofList H hs)
        (by rw [hbucket ph hph]; exact hne)
      rwa [hbucket ph hph] at this
  · exact (fud_perm _).trans (joinB_ofList H hs)

/-- C2 witness: a concrete round with one duplicated digest and one
unique digest. -/
theorem filter_unfinished_partition_witness :
    (⟨⟨2, [5]⟩, [], 0⟩ : ProgressiveHasher) ∈
      (filterUnfinishedDuplicates (HasherSet.ofList (fun c => c.headD 0)
        [⟨⟨0, [1]⟩, [], 0⟩, ⟨⟨1, [1]⟩, [], 0⟩, ⟨⟨2, [5]⟩, [], 0⟩])).1 ↔
      (⟨⟨2, [5]⟩, [], 0⟩ : ProgressiveHasher) ∈
        [⟨⟨0, [1]⟩, [], 0⟩, ⟨⟨1, [1]⟩, [], 0⟩, (⟨⟨2, [5]⟩, [], 0⟩ : ProgressiveHasher)] ∧
      (peers (fun c => c.headD 0)
        [⟨⟨0, [1]⟩, [], 0⟩, ⟨⟨1, [1]⟩, [], 0⟩, ⟨⟨2, [5]⟩, [], 0⟩]
        ⟨⟨2, [5]⟩, [], 0⟩).length = 1 :=
  (filter_unfinished_partition (fun c => c.headD 0)
    [⟨⟨0, [1]⟩, [], 0⟩, ⟨⟨1, [1]⟩, [], 0⟩, ⟨⟨2, [5]⟩, [], 0⟩]).1 ⟨⟨2, [5]⟩, [], 0⟩

/-! ## C1: the collector groups by content hash -/

theorem lookupH_updateH (m : List (HashV × FileEntries)) (h : HashV) (v : FileEntries) :
    ∀ h', lookupH (updateH m h v) h' = if h' = h then some v else lookupH m h' := by
  induction m with
  | nil =>
    intro h'
    by_cases he : h' = h
    · subst he
      simp [updateH, lookupH]
    · simp [updateH, lookupH, he, Ne.symm he]
  | cons kw rest ih =>
    obtain ⟨k, w⟩ := kw
    intro h'
    by_cases hk : k = h
    · subst hk
      rw [updateH, if_pos rfl]
      by_cases he : h' = k
      · subst he
        simp [lookupH]
      · simp [lookupH, he, Ne.symm he]
    · rw [updateH, if_neg hk]
      by_cases he : h' = k
      · subst he
        simp [lookupH, hk]
      · simp [lookupH, Ne.symm he, ih h']

theorem groupOf_snoc (ms : List OkMsg) (m : OkMsg) (h : HashV) :
    groupOf (ms ++ [m]) h =
      groupOf ms h ++ (if m.hash = h then [⟨m.path, m.size⟩] else []) := by
  by_cases hm : m.hash = h
  · simp [groupOf, List.filter_append, hm]
  · simp [groupOf, List.filter_append, hm]

theorem mem_groupOf (ms : List OkMsg) (h : HashV) (e : FileEntry) :
    e ∈ groupOf ms h ↔ ∃ m ∈ ms, m.hash = h ∧ e = ⟨m.path, m.size⟩ := by
  constructor
  · intro he
    obtain ⟨m, hmf, hme⟩ := List.mem_map.mp he
    obtain ⟨hm, hh⟩ := List.mem_filter.mp hmf
    exact ⟨m, hm, by simpa using hh, hme.symm⟩
  · rintro ⟨m, hm, hh, rfl⟩
    exact List.mem_map.mpr ⟨m, List.mem_filter.mpr ⟨hm, by simpa using hh⟩, rfl⟩

theorem SzCons_subset {l l' : List OkMsg} (hsub : ∀ x ∈ l', x ∈ l) (h : SzCons l) :
    SzCons l' :=
  fun m1 h1 m2 h2 hh => h m1 (hsub m1 h1) m2 (hsub m2 h2) hh

theorem add_entry_inv (r : DeduperResult) (ms : List OkMsg) (m : OkMsg)
    (hInv : Inv ms r) (hsz : SzCons (ms ++ [m])) :
    ∃ r', r.add_entry m.hash ⟨m.path, m.size⟩ = some r' ∧ Inv (ms ++ [m]) r' ∧
      r'.isPartial = r.isPartial := by
  have hcases : lookupH r.hashes m.hash = none ∨
      ∃ g, lookupH r.hashes m.hash = some g := by
    cases lookupH r.hashes m.hash
    · exact Or.inl rfl
    · exact Or.inr ⟨_, rfl⟩
  rcases hcases with hnone | ⟨g, hsome⟩
  · have hgrp : groupOf ms m.hash = [] := hInv.2 m.hash hnone
    have hadd : r.add_entry m.hash ⟨m.path, m.size⟩ =
        some ⟨updateH r.hashes m.hash ⟨[⟨m.path, m.size⟩], m.size⟩, r.isPartial⟩ := by
      simp [DeduperResult.add_entry, hnone, FileEntries.push]
    refine ⟨_, hadd, ⟨?_, ?_⟩, rfl⟩
    · intro h g' hg'
      rw [lookupH_updateH] at hg'
      by_cases hh : h = m.hash
      · subst hh
        rw [if_pos rfl] at hg'
        cases Option.some_injective _ hg'
        refine ⟨?_, by simp, ?_⟩
        · rw [groupOf_snoc, hgrp, if_pos rfl]
          rfl
        · intro e he
          rw [List.mem_singleton.mp he]
      · rw [if_neg hh] at hg'
        obtain ⟨hf, hne, hsz'⟩ := hInv.1 h g' hg'
        refine ⟨?_, hne, hsz'⟩
        rw [groupOf_snoc, hf, if_neg (fun hmh => hh hmh.symm), List.append_nil]
    · intro h hnone'
      rw [lookupH_updateH] at hnone'
      by_cases hh : h = m.hash
      · rw [if_pos hh] at hnone'
        exact absurd hnone' (by simp)
      · rw [if_neg hh] at hnone'
        rw [groupOf_snoc, hInv.2 h hnone', if_neg (fun hmh => hh hmh.symm)]
        rfl
  · obtain ⟨hf, hne, hszs⟩ := hInv.1 m.hash g hsome
    have hfs : g.file_size = m.size := by
      obtain ⟨e0, he0⟩ := List.exists_mem_of_ne_nil g.files hne
      obtain ⟨m0, hm0, hm0h, he0eq⟩ := (mem_groupOf ms m.hash e0).mp (hf ▸ he0)
      have h1 : e0.size = g.file_size := hszs e0 he0
      have h2 : e0.size = m0.size := by rw [he0eq]
      have h3 : m0.size = m.size :=
        hsz m0 (List.mem_append_left _ hm0) m
          (List.mem_append_right _ (List.mem_singleton.mpr rfl)) hm0h
      omega
    have hadd : r.add_entry m.hash ⟨m.path, m.size⟩ =
        some ⟨updateH r.hashes m.hash ⟨g.files ++ [⟨m.path, m.size⟩], g.file_size⟩,
          r.isPartial⟩ := by
      simp [DeduperResult.add_entry, hsome, FileEntries.push, hne, hfs]
    refine ⟨_, hadd, ⟨?_, ?_⟩, rfl⟩
    · intro h g' hg'
      rw [lookupH_updateH] at hg'
      by_cases hh : h = m.hash
      · subst hh
        rw [if_pos rfl] at hg'
        cases Option.some_injective _ hg'
        refine ⟨?_, by simp, ?_⟩
        · rw [groupOf_snoc, ← hf, if_pos rfl]
        · intro e he
          rcases List.mem_append.mp he with he | he
          · exact hszs e he
          · rw [List.mem_singleton.mp he]
            exact hfs.symm
      · rw [if_neg hh] at hg'
        obtain ⟨hf', hne', hsz''⟩ := hInv.1 h g' hg'
        exact ⟨by rw [groupOf_snoc, hf', if_neg (fun hmh => hh hmh.symm),
          List.append_nil], hne', hsz''⟩
    · intro h hnone'
      rw [lookupH_updateH] at hnone'
      by_cases hh : h = m.hash
      · rw [if_pos hh] at hnone'
        exact absurd hnone' (by simp)
      · rw [if_neg hh] at hnone'
        rw [groupOf_snoc, hInv.2 h hnone', if_neg (fun hmh => hh hmh.symm)]
        rfl

theorem collectAux_inv (msgs : List Msg) :
    ∀ (r : DeduperResult) (ms : List OkMsg),
      Inv ms r → SzCons (ms ++ oks msgs) →
      ∃ r', collectAux r msgs = some r' ∧ Inv (ms ++ oks msgs) r' ∧
        r'.isPartial = r.isPartial := by
  induction msgs with
  | nil =>
    intro r ms hInv _
    exact ⟨r, rfl, by simpa [oks] using hInv, rfl⟩
  | cons msg rest ih =>
    obtain ⟨p, res⟩ := msg
    cases res with
    | error e =>
      intro r ms hInv hsz
      obtain ⟨r', hr', hinv', hpar⟩ := ih r ms hInv (by simpa [oks] using hsz)
      exact ⟨r', by simpa [collectAux] using hr', by simpa [oks] using hinv', hpar⟩
    | ok szh =>
      obtain ⟨sz, h0⟩ := szh
      intro r ms hInv hsz
      have hsz1 : SzCons (ms ++ [(⟨p, sz, h0⟩ : OkMsg)]) := by
        apply SzCons_subset ?_ hsz
        intro x hx
        rcases List.mem_append.mp hx with hx | hx
        · exact List.mem_append_left _ hx
        · rw [List.mem_singleton.mp hx]
          exact List.mem_append_right _ (List.mem_cons_self _ _)
      obtain ⟨r1, hadd, hinv1, hpar1⟩ := add_entry_inv r ms ⟨p, sz, h0⟩ hInv hsz1
      have hsz2 : SzCons ((ms ++ [(⟨p, sz, h0⟩ : OkMsg)]) ++ oks rest) := by
        rw [List.append_assoc]
        exact hsz
      obtain ⟨r', hrec, hinv', hpar'⟩ := ih r1 (ms ++ [⟨p, sz, h0⟩]) hinv1 hsz2
      refine ⟨r', ?_, ?_, by rw [hpar', hpar1]⟩
      · show (match r.add_entry h0 ⟨p, sz⟩ with
          | some r2 => collectAux r2 rest
          | none => none) = some r'
        rw [hadd]
        exact hrec
      · rw [List.append_assoc] at hinv'
        exact hinv'

theorem collect_inv (msgs : List Msg) (hsz : SzCons (oks msgs)) :
    ∃ r, collect msgs = some r ∧ Inv (oks msgs) r ∧ r.isPartial = false := by
  have hInv0 : Inv [] (⟨[], false⟩ : DeduperResult) := by
    constructor
    · intro h g hg
      exact absurd hg (by simp [lookupH])
    · intro h _
      rfl
  obtain ⟨r, h1, h2, h3⟩ := collectAux_inv msgs ⟨[], false⟩ [] hInv0 (by simpa using hsz)
  exact ⟨r, h1, by simpa using h2, h3⟩

theorem oks_msgsOf (H : List Byte → HashV) (files : List (FPath × List (List Byte))) :
    oks (msgsOf H files) =
      files.map (fun f => (⟨f.1, (contentOf f).length, H (contentOf f)⟩ : OkMsg)) := by
  induction files with
  | nil => rfl
  | cons f fs ih =>
    obtain ⟨p, chunks⟩ := f
    show oks ((p, Except.ok (hash_file H chunks)) :: msgsOf H fs) = _
    rw [hash_file_spec]
    show (⟨p, chunks.flatten.length, H chunks.flatten⟩ : OkMsg) :: oks (msgsOf H fs) = _
    rw [ih]
    rfl

/-- C1: for error-free hashed files the collector returns the grouping of
content hashes: each file's reported pair is its byte count and the hash
of its full bytes, two files share a group iff their content hashes are
equal, and `duplicates` consists exactly of the groups with at least two
entries.  The hypotheses: hash-equal files have equal sizes (collision
resistance modulo sizes), and the files are distinct paths. -/
theorem collect_groups_by_content (H : List Byte → HashV)
    (files : List (FPath × List (List Byte)))
    (hsz : ∀ f1 ∈ files, ∀ f2 ∈ files,
      H (contentOf f1) = H (contentOf f2) → (contentOf f1).length = (contentOf f2).length)
    (hnd : (files.map Prod.fst).Nodup) :
    ∃ r, runCollect H files = some r ∧
      (∀ f ∈ files, ∃ g, lookupH r.hashes (H (contentOf f)) = some g ∧
        (⟨f.1, (contentOf f).length⟩ : FileEntry) ∈ g.files) ∧
      (∀ f1 ∈ files, ∀ f2 ∈ files,
        (sameGroup r f1.1 f2.1 ↔ H (contentOf f1) = H (contentOf f2))) ∧
      (∀ hg : HashV × FileEntries, hg ∈ r.duplicates ↔
        hg ∈ r.hashes ∧ 2 ≤ hg.2.files.length) := by
  have hoks := oks_msgsOf H files
  have hszc : SzCons (oks (msgsOf H files)) := by
    rw [hoks]
    intro m1 h1 m2 h2 hh
    obtain ⟨f1, hf1, he1⟩ := List.mem_map.mp h1
    obtain ⟨f2, hf2, he2⟩ := List.mem_map.mp h2
    subst he1
    subst he2
    exact hsz f1 hf1 f2 hf2 hh
  obtain ⟨r, hcol, hInv, hpar⟩ := collect_inv (msgsOf H files) hszc
  rw [hoks] at hInv
  have hmem : ∀ f ∈ files, ∃ g, lookupH r.hashes (H (contentOf f)) = some g ∧
      (⟨f.1, (contentOf f).length⟩ : FileEntry) ∈ g.files := by
    intro f hf
    have hm : (⟨f.1, (contentOf f).length, H (contentOf f)⟩ : OkMsg) ∈
        files.map (fun f => (⟨f.1, (contentOf f).length, H (contentOf f)⟩ : OkMsg)) :=
      List.mem_map.mpr ⟨f, hf, rfl⟩
    have hgm : (⟨f.1, (contentOf f).length⟩ : FileEntry) ∈
        groupOf (files.map (fun f => (⟨f.1, (contentOf f).length, H (contentOf f)⟩ : OkMsg)))
          (H (contentOf f)) :=
      (mem_groupOf _ _ _).mpr ⟨_, hm, rfl, rfl⟩
    rcases hcase : lookupH r.hashes (H (contentOf f)) with _ | g
    · rw [hInv.2 _ hcase] at hgm
      cases hgm
    · obtain ⟨hfg, -, -⟩ := hInv.1 _ g hcase
      exact ⟨g, rfl, by rw [hfg]; exact hgm⟩
  refine ⟨r, hcol, hmem, ?_, ?_⟩
  · intro f1 hf1 f2 hf2
    constructor
    · rintro ⟨h, g, hlk, hp1, hp2⟩
      obtain ⟨hfg, -, -⟩ := hInv.1 h g hlk
      have hext : ∀ f ∈ files, f.1 ∈ g.files.map FileEntry.path →
          H (contentOf f) = h := by
        intro f hf hp
        obtain ⟨e, he, hep⟩ := List.mem_map.mp hp
        rw [hfg] at he
        obtain ⟨m, hm, hmh, hme⟩ := (mem_groupOf _ _ _).mp he
        obtain ⟨f', hf', hfe⟩ := List.mem_map.mp hm
        have hpath : f'.1 = f.1 := by
          have h1 : m.path = f'.1 := by rw [← hfe]
          have h2 : e.path = m.path := by rw [hme]
          rw [← h1, ← h2, hep]
        have hff : f' = f := List.inj_on_of_nodup_map hnd hf' hf hpath
        have h3 : m.hash = H (contentOf f') := by rw [← hfe]
        rw [← hff, ← h3, hmh]
      have h1 := hext f1 hf1 hp1
      have h2 := hext f2 hf2 hp2
      rw [h1, h2]
    · intro hhe
      obtain ⟨g1, hlk1, hin1⟩ := hmem f1 hf1
      obtain ⟨g2, hlk2, hin2⟩ := hmem f2 hf2
      rw [hhe] at hlk1
      cases Option.some_injective _ (hlk1.symm.trans hlk2)
      exact ⟨H (contentOf f2), g1, hlk2, List.mem_map_of_mem _ hin1,
        List.mem_map_of_mem _ hin2⟩
  · intro hg
    rw [DeduperResult.duplicates, List.mem_filter]
    simp only [decide_eq_true_eq]
    exact Iff.rfl

/-- C1 witness: the hypotheses discharged on a concrete three-file tree
with one duplicate pair. -/
theorem collect_groups_by_content_witness :
    ∃ r, runCollect (fun c => c.headD 0) [(0, [[1]]), (1, [[1]]), (2, [[2]])] = some r ∧
      (∀ f ∈ [(0, [[1]]), (1, [[1]]), (2, [[2]])],
        ∃ g, lookupH r.hashes ((fun c => c.headD 0) (contentOf f)) = some g ∧
          (⟨f.1, (contentOf f).length⟩ : FileEntry) ∈ g.files) ∧
      (∀ f1 ∈ [(0, [[1]]), (1, [[1]]), (2, [[2]])],
        ∀ f2 ∈ [(0, [[1]]), (1, [[1]]), (2, [[2]])],
        (sameGroup r f1.1 f2.1 ↔
          (fun c => c.headD 0) (contentOf f1) = (fun c => c.headD 0) (contentOf f2))) ∧
      (∀ hg : HashV × FileEntries, hg ∈ r.duplicates ↔
        hg ∈ r.hashes ∧ 2 ≤ hg.2.files.length) :=
  collect_groups_by_content (fun c => c.headD 0) [(0, [[1]]), (1, [[1]]), (2, [[2]])]
    (by decide) (by decide)

/-! ## C4: the partial flag -/

theorem add_entry_cases (r : DeduperResult) (h : HashV) (e : FileEntry) :
    r.add_entry h e = none ∨ ∃ hs, r.add_entry h e = some ⟨hs, r.isPartial⟩ := by
  rw [DeduperResult.add_entry]
  cases ((lookupH r.hashes h).getD ⟨[], 0⟩).push e
  · exact Or.inl rfl
  · exact Or.inr ⟨_, rfl⟩

theorem collectAux_isPartial : ∀ (msgs : List Msg) (r r' : DeduperResult),
    collectAux r msgs = some r' → r'.isPartial = r.isPartial := by
  intro msgs
  induction msgs with
  | nil =>
    intro r r' h
    cases Option.some_injective _ h
    rfl
  | cons msg rest ih =>
    obtain ⟨p, res⟩ := msg
    cases res with
    | error e =>
      intro r r' h
      exact ih r r' (by simpa [collectAux] using h)
    | ok szh =>
      obtain ⟨sz, h0⟩ := szh
      intro r r' h
      have hshow : collectAux r ((p, Except.ok (sz, h0)) :: rest) =
          (match r.add_entry h0 ⟨p, sz⟩ with
            | some r2 => collectAux r2 rest
            | none => none) := rfl
      rcases add_entry_cases r h0 ⟨p, sz⟩ with hc | ⟨hs, hc⟩
      · rw [hshow, hc] at h
        exact absurd h (by simp)
      · rw [hshow, hc] at h
        exact ih ⟨hs, r.isPartial⟩ r' h

theorem walkLoop_stopped (stop : Nat → Bool) :
    ∀ (es : List (FPath × List (List Byte))) (k : Nat),
      (walkLoop stop es k).2 = true ↔ ∃ i, i < es.length ∧ stop (k + i) = true := by
  intro es
  induction es with
  | nil =>
    intro k
    simp [walkLoop]
  | cons e rest ih =>
    intro k
    by_cases hs : stop k = true
    · rw [walkLoop, if_pos hs]
      refine ⟨fun _ => ⟨0, Nat.succ_pos _, by simpa using hs⟩, fun _ => rfl⟩
    · have hs' : stop k = false := by simpa using hs
      rw [walkLoop, if_neg hs]
      show (walkLoop stop rest (k + 1)).2 = true ↔ _
      rw [ih (k + 1)]
      constructor
      · rintro ⟨i, hi, hsi⟩
        refine ⟨i + 1, by simp only [List.length_cons]; omega, ?_⟩
        have harith : k + (i + 1) = k + 1 + i := by omega
        rw [harith]
        exact hsi
      · rintro ⟨i, hi, hsi⟩
        cases i with
        | zero =>
          rw [Nat.add_zero] at hsi
          rw [hsi] at hs'
          cases hs'
        | succ i =>
          refine ⟨i, by simp only [List.length_cons] at hi; omega, ?_⟩
          have harith : k + 1 + i = k + (i + 1) := by omega
          rw [harith]
          exact hsi

/-- C4: `find` marks the result partial exactly when a stop verdict ended
the walk before all entries were visited; a run in which the stopper
never answers stop yields a non-partial result. -/
theorem find_is_partial_iff_stop (stop : Nat → Bool) (H : List Byte → HashV)
    (files : List (FPath × List (List Byte))) (r : DeduperResult)
    (hrun : findRun stop H files = some r) :
    (r.isPartial = true ↔ ∃ i, i < files.length ∧ stop i = true) ∧
    ((∀ i, i < files.length → stop i = false) → r.isPartial = false) := by
  rw [findRun] at hrun
  rcases hrc : runCollect H (walkLoop stop files 0).1 with _ | r0
  · rw [hrc] at hrun
    exact absurd hrun (by simp)
  · rw [hrc] at hrun
    have hreq : (if (walkLoop stop files 0).2 then r0.setPartial else r0) = r :=
      Option.some_injective _ (by simpa using hrun)
    have hr0p : r0.isPartial = false := by
      have := collectAux_isPartial (msgsOf H (walkLoop stop files 0).1) ⟨[], false⟩ r0 hrc
      simpa using this
    have hiff := walkLoop_stopped stop files 0
    have hiff' : (walkLoop stop files 0).2 = true ↔
        ∃ i, i < files.length ∧ stop i = true := by
      rw [hiff]
      constructor
      · rintro ⟨i, hi, hsi⟩
        exact ⟨i, hi, by simpa using hsi⟩
      · rintro ⟨i, hi, hsi⟩
        exact ⟨i, hi, by simpa using hsi⟩
    by_cases hw : (walkLoop stop files 0).2 = true
    · rw [if_pos hw] at hreq
      subst hreq
      constructor
      · exact ⟨fun _ => hiff'.mp hw, fun _ => rfl⟩
      · intro hall
        exfalso
        obtain ⟨i, hi, hsi⟩ := hiff'.mp hw
        rw [hall i hi] at hsi
        cases hsi
    · have hw' : (walkLoop stop files 0).2 = false := by simpa using hw
      rw [if_neg hw] at hreq
      subst hreq
      constructor
      · rw [hr0p]
        constructor
        · intro h
          cases h
        · intro hex
          exact absurd (hiff'.mpr hex) hw
      · intro _
        exact hr0p

/-- C4 witness: a stopper that fires at the second entry yields a partial
result. -/
theorem find_is_partial_iff_stop_witness :
    (⟨[(1, ⟨[⟨0, 1⟩], 1⟩)], true⟩ : DeduperResult).isPartial = true ↔
      ∃ i, i < 3 ∧ (fun k => decide (k = 1)) i = true :=
  (find_is_partial_iff_stop (fun k => decide (k = 1)) (fun c => c.headD 0)
    [(0, [[1]]), (1, [[2]]), (2, [[3]])] ⟨[(1, ⟨[⟨0, 1⟩], 1⟩)], true⟩ (by decide)).1

end FileDup
